import Mathlib

/-!
Shallow embedding of the DPC (Differential Phase Contrast) module
`skxray/dpc.py`: image reduction, the residual-model factory, the phase
reconstruction solver `recon`, and the orchestration loop `dpc_runner`.

Real-valued image data is modelled over `ℚ` (exact stand-in for the
floating-point reals), spectra over `ℂ`.  External library routines that
the module calls (`np.fft.fft2`, `np.fft.ifft2`, `np.fft.ifft`,
`scipy.optimize.minimize`) are taken as parameters of the embedding; the
index bookkeeping around them (`fftshift`, `ifftshift`, padding, slicing,
`unravel_index`) is modelled concretely.
-/

namespace Dpc

/-- A 2-D array: a shape together with a total entry function.  Entries
outside the shape are irrelevant junk, as in a C-style buffer view. -/
structure Arr2 (α : Type) where
  rows : ℕ
  cols : ℕ
  entry : ℕ → ℕ → α

/-- Write a single entry (`a[r, c] = v`). -/
def setEntry {α : Type} (a : Arr2 α) (r c : ℕ) (v : α) : Arr2 α :=
  ⟨a.rows, a.cols, fun i j => if i = r ∧ j = c then v else a.entry i j⟩

/-- Constant-filled array (`np.zeros` when `v = 0`). -/
def constArr {α : Type} (rows cols : ℕ) (v : α) : Arr2 α :=
  ⟨rows, cols, fun _ _ => v⟩

/-- Python 2-D slice `a[r : r + nr, c : c + nc]` with nonnegative bounds:
out-of-range parts are silently clipped, exactly as in Python slicing. -/
def sliceArr {α : Type} (a : Arr2 α) (r c nr nc : ℕ) : Arr2 α :=
  ⟨min (r + nr) a.rows - min r a.rows,
   min (c + nc) a.cols - min c a.cols,
   fun i j => a.entry (min r a.rows + i) (min c a.cols + j)⟩

/-- Zero out the listed `(row, column)` pixels, in order
(`im[row, column] = 0` for each pair). -/
def zeroBadPixels (a : Arr2 ℚ) (bps : List (ℕ × ℕ)) : Arr2 ℚ :=
  bps.foldl (fun acc p => setEntry acc p.1 p.2 0) a

/-- The optional bad-pixel pass of `image_reduction`. -/
def applyBadPixels (a : Arr2 ℚ) (bps : Option (List (ℕ × ℕ))) : Arr2 ℚ :=
  match bps with
  | none => a
  | some l => zeroBadPixels a l

/-- The optional ROI crop of `image_reduction`:
`im = im[r : r + row, c : c + col]`. -/
def applyROI (a : Arr2 ℚ) (roi : Option (ℕ × ℕ × ℕ × ℕ)) : Arr2 ℚ :=
  match roi with
  | none => a
  | some (r, c, nr, nc) => sliceArr a r c nr nc

/-- The image after both optional passes, in source order: bad pixels
zeroed first, then the ROI crop. -/
def processedImage (a : Arr2 ℚ) (roi : Option (ℕ × ℕ × ℕ × ℕ))
    (bps : Option (List (ℕ × ℕ))) : Arr2 ℚ :=
  applyROI (applyBadPixels a bps) roi

/-- `np.sum(im, axis=0)`: one sum per column. -/
def sumAxis0 (a : Arr2 ℚ) : List ℚ :=
  (List.range a.cols).map fun j => ((List.range a.rows).map fun i => a.entry i j).sum

/-- `np.sum(im, axis=1)`: one sum per row. -/
def sumAxis1 (a : Arr2 ℚ) : List ℚ :=
  (List.range a.rows).map fun i => ((List.range a.cols).map fun j => a.entry i j).sum

/-- `image_reduction(im, roi, bad_pixels)`: copy the image, zero the bad
pixels on the copy, crop to the ROI, and return the two axis projections
`(xline, yline)`. -/
def image_reduction (im : Arr2 ℚ) (roi : Option (ℕ × ℕ × ℕ × ℕ))
    (bps : Option (List (ℕ × ℕ))) : List ℚ × List ℚ :=
  let im3 := processedImage im roi bps
  (sumAxis0 im3, sumAxis1 im3)

/-- Sum of every in-shape pixel of an array. -/
def totalSum (a : Arr2 ℚ) : ℚ :=
  ∑ i ∈ Finset.range a.rows, ∑ j ∈ Finset.range a.cols, a.entry i j

/-- `np.linspace(lo, hi, n)` with `endpoint=True`, over exact rationals.
For `n = 1` the step term vanishes (`(n : ℚ) - 1 = 0` and `q / 0 = 0`),
matching numpy's single-element behaviour of returning `[lo]`. -/
def linspaceQ (lo hi : ℚ) (n : ℕ) : List ℚ :=
  (List.range n).map fun (k : ℕ) => lo + (k : ℚ) * (hi - lo) / ((n : ℚ) - 1)

/-- The frequency-support vector `beta` precomputed by `_rss_factory`:
`1j * np.linspace(-(length-1)//2, (length-1)//2, length)`.  Python `//`
is floor division, modelled by `Int.fdiv`. -/
noncomputable def betaVec (length : ℕ) : List ℂ :=
  (linspaceQ ((Int.fdiv (-((length : ℤ) - 1)) 2 : ℤ) : ℚ)
             ((Int.fdiv ((length : ℤ) - 1) 2 : ℤ) : ℚ) length).map
    fun (q : ℚ) => Complex.I * (q : ℂ)

/-- Refinement target written from the spec's wording of the factory
claim: `i * linspace(-(length-1)/2, (length-1)/2, length)` with exact
real (rational) division, so even lengths get half-integer endpoints. -/
noncomputable def betaSpec (length : ℕ) : List ℂ :=
  (linspaceQ (-((length : ℚ) - 1) / 2) (((length : ℚ) - 1) / 2) length).map
    fun (q : ℚ) => Complex.I * (q : ℂ)

/-- The amended support vector, phrased independently of `Int.fdiv`:
endpoints are the floor-divided values `-(length / 2)` and
`(length - 1) / 2` (natural-number division). -/
noncomputable def betaAmended (length : ℕ) : List ℂ :=
  (linspaceQ (-((length / 2 : ℕ) : ℚ)) (((length - 1) / 2 : ℕ) : ℚ) length).map
    fun (q : ℚ) => Complex.I * (q : ℂ)

/-- The residual function `_rss` closed over a support vector `beta`:
`diff = arg2 - arg1 * v[0] * np.exp(v[1] * beta)` elementwise, returning
`np.sum((diff * np.conj(diff)).real)`. -/
noncomputable def rssOf (beta : List ℂ) (v : ℝ × ℝ) (arg1 arg2 : List ℂ) : ℝ :=
  let model := List.zipWith (fun a b => a * (v.1 : ℂ) * Complex.exp ((v.2 : ℂ) * b)) arg1 beta
  let diff := List.zipWith (fun x y => x - y) arg2 model
  (diff.map fun z => (z * (starRingEnd ℂ) z).re).sum

/-- `_rss_factory(length)`: the residual function closed over the
support vector of the given length. -/
noncomputable def rssFactory (length : ℕ) : (ℝ × ℝ) → List ℂ → List ℂ → ℝ :=
  rssOf (betaVec length)

/-- Cast a rational array to a complex one (real data entering `fft2`). -/
noncomputable def toC (a : Arr2 ℝ) : Arr2 ℂ :=
  ⟨a.rows, a.cols, fun i j => ((a.entry i j : ℝ) : ℂ)⟩

/-- Real part of each entry (`arr.real`). -/
def reMap (a : Arr2 ℂ) : Arr2 ℝ :=
  ⟨a.rows, a.cols, fun i j => (a.entry i j).re⟩

/-- `np.fft.fftshift` on both axes: `out[i, j] = in[(i + n - n/2) % n, (j + m - m/2) % m]`
(division is natural floor division), the index roll that moves the
zero-frequency entry to the centre. -/
def fftshift2 (a : Arr2 ℂ) : Arr2 ℂ :=
  ⟨a.rows, a.cols, fun i j =>
    a.entry ((i + (a.rows - a.rows / 2)) % a.rows) ((j + (a.cols - a.cols / 2)) % a.cols)⟩

/-- `np.fft.ifftshift` on both axes: `out[i, j] = in[(i + n/2) % n, (j + m/2) % m]`. -/
def ifftshift2 (a : Arr2 ℂ) : Arr2 ℂ :=
  ⟨a.rows, a.cols, fun i j => a.entry ((i + a.rows / 2) % a.rows) ((j + a.cols / 2) % a.cols)⟩

/-- The zero-filled padded grid of `recon`: shape
`(rows * (2*padding+1), cols * (2*padding+1))` with `g` assigned into the
sub-block `[padding*rows, (padding+1)*rows) × [padding*cols, (padding+1)*cols)`.
`rows`/`cols` come from `gx.shape` in the source, so both gradient grids
are placed with the same geometry. -/
def placePad (rows cols : ℕ) (g : Arr2 ℝ) (padding : ℕ) : Arr2 ℝ :=
  ⟨rows * (2 * padding + 1), cols * (2 * padding + 1), fun i j =>
    if padding * rows ≤ i ∧ i < (padding + 1) * rows ∧
       padding * cols ≤ j ∧ j < (padding + 1) * cols then
      g.entry (i - padding * rows) (j - padding * cols)
    else 0⟩

/-- Frequency coordinate along the column axis:
`ax[j] = 2π * (j + 1 - mid_col) / (pad_col * dx)` with `mid_col = pad_col/2 + 1`. -/
noncomputable def freqCoord (padN : ℕ) (d : ℝ) (j : ℕ) : ℝ :=
  2 * Real.pi * ((j : ℝ) + 1 - ((padN / 2 + 1 : ℕ) : ℝ)) / ((padN : ℝ) * d)

/-- The divisor grid `div_v = kappax ** 2 * (1 - w) + kappay ** 2 * w`;
`kappax[i, j] = ax[j]` and `kappay[i, j] = ay[i]` from `np.meshgrid`. -/
noncomputable def divV (padRow padCol : ℕ) (dx dy : ℝ) (w : ℚ) (i j : ℕ) : ℝ :=
  freqCoord padCol dx j ^ 2 * (1 - (w : ℝ)) + freqCoord padRow dy i ^ 2 * (w : ℝ)

/-- The combined spectrum after the `np.where(div_v == 0, 0, c)` mask:
`c = -1j * (kappax * tx * (1-w) + kappay * ty * w) / div_v` where the
divisor is nonzero, and `0` where it vanishes. -/
noncomputable def cGrid (padRow padCol : ℕ) (dx dy : ℝ) (w : ℚ) (tx ty : Arr2 ℂ) : Arr2 ℂ :=
  ⟨padRow, padCol, fun i j =>
    if divV padRow padCol dx dy w i j = 0 then 0
    else -Complex.I *
        ((freqCoord padCol dx j : ℝ) * tx.entry i j * ((1 : ℝ) - (w : ℝ)) +
         (freqCoord padRow dy i : ℝ) * ty.entry i j * ((w : ℝ) : ℂ)) /
      ((divV padRow padCol dx dy w i j : ℝ) : ℂ)⟩

/-- The body of `recon` after the `w` check, parameterized by the
external 2-D transforms `np.fft.fft2` and `np.fft.ifft2`. -/
noncomputable def reconCore (fft2 ifft2 : Arr2 ℂ → Arr2 ℂ) (gx gy : Arr2 ℝ)
    (dx dy : ℝ) (padding : ℕ) (w : ℚ) : Arr2 ℝ :=
  let rows := gx.rows
  let cols := gx.cols
  let pad := 2 * padding + 1
  let padRow := rows * pad
  let padCol := cols * pad
  let tx := fftshift2 (fft2 (toC (placePad rows cols gx padding)))
  let ty := fftshift2 (fft2 (toC (placePad rows cols gy padding)))
  let c2 := ifftshift2 (cGrid padRow padCol dx dy w tx ty)
  reMap (sliceArr (ifft2 c2) (padding * rows) (padding * cols) rows cols)

/-- The `ValueError` message of the weighting-factor check. -/
def wMsg : String := "w should be within the range of [0, 1]!"

/-- The `ValueError` message of the square-pixel check. -/
def pxMsg : String := "In DPC, detector pixels are squares!"

/-- The `ValueError` raised by `np.unravel_index` on an out-of-range index. -/
def unravelMsg : String := "index is out of bounds"

/-- `recon(gx, gy, dx, dy, padding, w)`: validate `w`, then run the
frequency-domain solve. -/
noncomputable def reconE (fft2 ifft2 : Arr2 ℂ → Arr2 ℂ) (gx gy : Arr2 ℝ)
    (dx dy : ℝ) (padding : ℕ) (w : ℚ) : Except String (Arr2 ℝ) :=
  if w < 0 ∨ w > 1 then Except.error wMsg
  else Except.ok (reconCore fft2 ifft2 gx gy dx dy padding w)

/-- `np.fft.fftshift` on a 1-D vector: `out[i] = in[(i + n - n/2) % n]`. -/
def fftshift1 (l : List ℂ) : List ℂ :=
  (List.range l.length).map fun i => l.getD ((i + (l.length - l.length / 2)) % l.length) 0

/-- Multiply every entry by a scalar (`arr *= c`). -/
noncomputable def scaleArr (a : Arr2 ℝ) (c : ℝ) : Arr2 ℝ :=
  ⟨a.rows, a.cols, fun i j => a.entry i j * c⟩

/-- Negate every entry (`-arr`). -/
noncomputable def negArr (a : Arr2 ℝ) : Arr2 ℝ :=
  ⟨a.rows, a.cols, fun i j => -a.entry i j⟩

/-- Elementwise average `(ax + ay) / 2`. -/
noncomputable def avgArr (a b : Arr2 ℝ) : Arr2 ℝ :=
  ⟨a.rows, a.cols, fun i j => (a.entry i j + b.entry i j) / 2⟩

/-- The four accumulator grids of the scan loop. -/
structure DpcState where
  ax : Arr2 ℝ
  ay : Arr2 ℝ
  gx : Arr2 ℝ
  gy : Arr2 ℝ

/-- One iteration body of the scan loop at grid cell `(i, j)`: reduce the
image, spectrum via 1-D inverse transform plus shift, fit both axes
(`dpc_fit` wraps the external optimizer `fit`), and write the four cells. -/
noncomputable def scanStep (ifft1 : List ℚ → List ℂ)
    (fit : ((ℝ × ℝ) → List ℂ → List ℂ → ℝ) → (ℝ × ℝ) → List ℂ → List ℂ → String → ℝ × ℝ)
    (solver : String) (start : ℝ × ℝ) (roi : Option (ℕ × ℕ × ℕ × ℕ))
    (bps : Option (List (ℕ × ℕ))) (ffx ffy : (ℝ × ℝ) → List ℂ → List ℂ → ℝ)
    (ref_fx ref_fy : List ℂ) (im : Arr2 ℚ) (i j : ℕ) (s : DpcState) : DpcState :=
  let red := image_reduction im roi bps
  let fx := fftshift1 (ifft1 red.1)
  let fy := fftshift1 (ifft1 red.2)
  let rx := fit ffx start ref_fx fx solver
  let ry := fit ffy start ref_fy fy solver
  ⟨setEntry s.ax i j rx.1, setEntry s.ay i j ry.1,
   setEntry s.gx i j rx.2, setEntry s.gy i j ry.2⟩

/-- The `for index, im in enumerate(image_sequence)` loop.  Each list
element examined counts as one element pulled from the lazy sequence
(second component).  `np.unravel_index(index, (rows, cols))` succeeds
exactly when `index < rows * cols`, yielding the row-major cell
`(index / cols, index % cols)`; otherwise it raises, after the element
has already been pulled. -/
def scanLoop (rows cols : ℕ) (step : Arr2 ℚ → ℕ → ℕ → DpcState → DpcState) :
    List (Arr2 ℚ) → ℕ → DpcState → Except String DpcState × ℕ
  | [], _, s => (Except.ok s, 0)
  | im :: rest, idx, s =>
    if idx < rows * cols then
      let p := scanLoop rows cols step rest (idx + 1) (step im (idx / cols) (idx % cols) s)
      (p.1, p.2 + 1)
    else (Except.error unravelMsg, 1)

/-- The part of `dpc_runner` after the scan loop: propagate a loop
error, check the square-pixel precondition under `scale`, scale and
invert the gradients, reconstruct, and pair the phase image with the
averaged amplitude map. -/
noncomputable def runnerTail (fft2 ifft2 : Arr2 ℂ → Arr2 ℂ) (px : ℚ × ℚ)
    (focusToDet : ℝ) (dx dy : ℝ) (energy : ℝ) (padding : ℕ) (w : ℚ)
    (invert scale : Bool) (ref_fx ref_fy : List ℂ)
    (res : Except String DpcState × ℕ) : Except String (Arr2 ℝ × Arr2 ℝ) × ℕ :=
  match res.1 with
  | Except.error e => (Except.error e, res.2)
  | Except.ok st =>
    if scale ∧ px.1 ≠ px.2 then (Except.error pxMsg, res.2)
    else
      let st2 :=
        if scale then
          let lam := (12.4e-4 : ℝ) / energy
          { st with
            gx := scaleArr st.gx ((ref_fx.length : ℝ) * (px.1 : ℝ) / (lam * focusToDet)),
            gy := scaleArr st.gy ((ref_fy.length : ℝ) * (px.1 : ℝ) / (lam * focusToDet)) }
        else st
      let gxF := if invert then negArr st2.gx else st2.gx
      match reconE fft2 ifft2 gxF st2.gy dx dy padding w with
      | Except.error e => (Except.error e, res.2)
      | Except.ok phi => (Except.ok (phi, avgArr st.ax st.ay), res.2)

/-- `dpc_runner`: validate `w`, reduce the reference, build the two
residual models, run the scan loop over the image sequence, then finish
through `runnerTail`.  The second component counts elements pulled from
`image_sequence`. -/
noncomputable def dpc_runner (fft2 ifft2 : Arr2 ℂ → Arr2 ℂ) (ifft1 : List ℚ → List ℂ)
    (fit : ((ℝ × ℝ) → List ℂ → List ℂ → ℝ) → (ℝ × ℝ) → List ℂ → List ℂ → String → ℝ × ℝ)
    (ref : Arr2 ℚ) (images : List (Arr2 ℚ)) (start : ℝ × ℝ) (px : ℚ × ℚ)
    (focusToDet : ℝ) (rows cols : ℕ) (dx dy : ℝ) (energy : ℝ) (padding : ℕ)
    (w : ℚ) (solver : String) (roi : Option (ℕ × ℕ × ℕ × ℕ))
    (bps : Option (List (ℕ × ℕ))) (invert scale : Bool) :
    Except String (Arr2 ℝ × Arr2 ℝ) × ℕ :=
  if w < 0 ∨ w > 1 then (Except.error wMsg, 0)
  else
    let z : Arr2 ℝ := constArr rows cols 0
    let refPair := image_reduction ref roi bps
    let ref_fx := fftshift1 (ifft1 refPair.1)
    let ref_fy := fftshift1 (ifft1 refPair.2)
    let ffx := rssFactory ref_fx.length
    let ffy := rssFactory ref_fy.length
    runnerTail fft2 ifft2 px focusToDet dx dy energy padding w invert scale ref_fx ref_fy
      (scanLoop rows cols
        (scanStep ifft1 fit solver start roi bps ffx ffy ref_fx ref_fy) images 0 ⟨z, z, z, z⟩)

/-- A store of image buffers indexed by addresses, used to make the
aliasing behaviour of `image_reduction` (its `im = im.copy()` line)
observable: addresses below `next` are allocated. -/
structure Heap where
  next : ℕ
  store : ℕ → Arr2 ℚ

/-- Overwrite the buffer at an address. -/
def heapWrite (h : Heap) (a : ℕ) (arr : Arr2 ℚ) : Heap :=
  ⟨h.next, fun x => if x = a then arr else h.store x⟩

/-- Allocate a fresh buffer holding `arr`, returning its address. -/
def heapAlloc (h : Heap) (arr : Arr2 ℚ) : ℕ × Heap :=
  (h.next, ⟨h.next + 1, fun x => if x = h.next then arr else h.store x⟩)

/-- `image_reduction` against the buffer store: `im = im.copy()`
allocates a fresh buffer; each bad-pixel write mutates that buffer in
place; the ROI crop and the sums read it.  Returns the projections and
the post-call store. -/
def image_reduction_st (h : Heap) (addr : ℕ) (roi : Option (ℕ × ℕ × ℕ × ℕ))
    (bps : Option (List (ℕ × ℕ))) : (List ℚ × List ℚ) × Heap :=
  let al := heapAlloc h (h.store addr)
  let h2 :=
    match bps with
    | none => al.2
    | some l =>
      l.foldl (fun hh p => heapWrite hh al.1 (setEntry (hh.store al.1) p.1 p.2 0)) al.2
  let im3 := applyROI (h2.store al.1) roi
  ((sumAxis0 im3, sumAxis1 im3), h2)

section Lemmas

/-- Sum of a mapped range as a `Finset` sum. -/
theorem sum_map_range (f : ℕ → ℚ) (n : ℕ) :
    ((List.range n).map f).sum = ∑ k ∈ Finset.range n, f k := by
  induction n with
  | zero => simp
  | succ m ih => rw [List.range_succ, List.map_append, List.sum_append,
      Finset.sum_range_succ, ih]; simp

/-- A fold of heap writes at one address never changes other buffers. -/
theorem foldl_heapWrite_store_ne (c : ℕ)
    (l : List (ℕ × ℕ)) (h : Heap) (a : ℕ) (hne : a ≠ c) :
    (l.foldl (fun hh p => heapWrite hh c (setEntry (hh.store c) p.1 p.2 0)) h).store a =
      h.store a := by
  induction l generalizing h with
  | nil => rfl
  | cons p t ih => simpa [heapWrite, hne] using ih (heapWrite h c (setEntry (h.store c) p.1 p.2 0))

/-- A fold of heap writes at one address acts on that buffer exactly as
the pure fold of entry writes. -/
theorem foldl_heapWrite_store_eq (c : ℕ) (l : List (ℕ × ℕ)) (h : Heap) :
    (l.foldl (fun hh p => heapWrite hh c (setEntry (hh.store c) p.1 p.2 0)) h).store c =
      l.foldl (fun acc p => setEntry acc p.1 p.2 0) (h.store c) := by
  induction l generalizing h with
  | nil => rfl
  | cons p t ih =>
    simpa [heapWrite] using ih (heapWrite h c (setEntry (h.store c) p.1 p.2 0))

/-- The stateful reduction computes the pure `image_reduction` of the
addressed buffer. -/
theorem image_reduction_st_fst (h : Heap) (addr : ℕ) (roi : Option (ℕ × ℕ × ℕ × ℕ))
    (bps : Option (List (ℕ × ℕ))) :
    (image_reduction_st h addr roi bps).1 = image_reduction (h.store addr) roi bps := by
  cases bps with
  | none =>
    simp [image_reduction_st, image_reduction, processedImage, applyBadPixels,
      heapAlloc]
  | some l =>
    simp only [image_reduction_st, image_reduction, processedImage, applyBadPixels,
      heapAlloc, foldl_heapWrite_store_eq, zeroBadPixels]
    simp

/-- Zeroing bad pixels never changes the shape. -/
theorem zeroBadPixels_shape (l : List (ℕ × ℕ)) (a : Arr2 ℚ) :
    (zeroBadPixels a l).rows = a.rows ∧ (zeroBadPixels a l).cols = a.cols := by
  induction l generalizing a with
  | nil => exact ⟨rfl, rfl⟩
  | cons p t ih => simpa [zeroBadPixels, setEntry] using ih (setEntry a p.1 p.2 0)

/-- The optional bad-pixel pass never changes the row count. -/
theorem applyBadPixels_rows (a : Arr2 ℚ) (bps : Option (List (ℕ × ℕ))) :
    (applyBadPixels a bps).rows = a.rows := by
  cases bps with
  | none => rfl
  | some l => exact (zeroBadPixels_shape l a).1

/-- The optional bad-pixel pass never changes the column count. -/
theorem applyBadPixels_cols (a : Arr2 ℚ) (bps : Option (List (ℕ × ℕ))) :
    (applyBadPixels a bps).cols = a.cols := by
  cases bps with
  | none => rfl
  | some l => exact (zeroBadPixels_shape l a).2

end Lemmas

/-- C5: for every 2-D image, ROI and bad-pixel set, the two projections
returned by `image_reduction` both sum to the total of all pixels of the
image after bad-pixel zeroing and ROI cropping. -/
theorem C5_projection_sums (im : Arr2 ℚ) (roi : Option (ℕ × ℕ × ℕ × ℕ))
    (bps : Option (List (ℕ × ℕ))) :
    ((image_reduction im roi bps).1).sum = totalSum (processedImage im roi bps) ∧
    ((image_reduction im roi bps).2).sum = totalSum (processedImage im roi bps) := by
  set a := processedImage im roi bps with ha
  constructor
  · show (sumAxis0 a).sum = totalSum a
    unfold sumAxis0 totalSum
    rw [sum_map_range]
    calc ∑ j ∈ Finset.range a.cols, ((List.range a.rows).map fun i => a.entry i j).sum
        = ∑ j ∈ Finset.range a.cols, ∑ i ∈ Finset.range a.rows, a.entry i j :=
          Finset.sum_congr rfl fun j _ => sum_map_range _ _
      _ = ∑ i ∈ Finset.range a.rows, ∑ j ∈ Finset.range a.cols, a.entry i j :=
          Finset.sum_comm
  · show (sumAxis1 a).sum = totalSum a
    unfold sumAxis1 totalSum
    rw [sum_map_range]
    exact Finset.sum_congr rfl fun i _ => sum_map_range _ _

/-- C7: `image_reduction` leaves the caller's buffer untouched (only the
freshly allocated private copy receives the bad-pixel writes), its
outputs are the pure function of the buffer's value, and two calls on
buffers holding identical values return identical outputs. -/
theorem C7_reduction_pure (h : Heap) (addr : ℕ) (roi : Option (ℕ × ℕ × ℕ × ℕ))
    (bps : Option (List (ℕ × ℕ))) (haddr : addr < h.next) :
    (image_reduction_st h addr roi bps).2.store addr = h.store addr ∧
    (image_reduction_st h addr roi bps).1 = image_reduction (h.store addr) roi bps ∧
    (∀ (h2 : Heap) (a2 : ℕ), h2.store a2 = h.store addr →
      (image_reduction_st h2 a2 roi bps).1 = (image_reduction_st h addr roi bps).1) := by
  have hne : addr ≠ h.next := Nat.ne_of_lt haddr
  refine ⟨?_, image_reduction_st_fst h addr roi bps, ?_⟩
  · cases bps with
    | none => simp [image_reduction_st, heapAlloc, hne]
    | some l =>
      simp only [image_reduction_st, heapAlloc]
      rw [foldl_heapWrite_store_ne _ _ _ _ hne]
      simp [hne]
  · intro h2 a2 hval
    rw [image_reduction_st_fst, image_reduction_st_fst, hval]

/-- A tiny concrete heap used by the frame-effect witness. -/
def demoHeap : Heap := ⟨1, fun _ => constArr 2 2 (3 : ℚ)⟩

/-- C7 witness: the theorem applied to a concrete one-buffer heap with a
bad pixel to zero. -/
theorem C7_reduction_pure_witness :
    (image_reduction_st demoHeap 0 none (some [(0, 0)])).2.store 0 = demoHeap.store 0 ∧
    (image_reduction_st demoHeap 0 none (some [(0, 0)])).1 =
      image_reduction (demoHeap.store 0) none (some [(0, 0)]) ∧
    (∀ (h2 : Heap) (a2 : ℕ), h2.store a2 = demoHeap.store 0 →
      (image_reduction_st h2 a2 none (some [(0, 0)])).1 =
        (image_reduction_st demoHeap 0 none (some [(0, 0)])).1) :=
  C7_reduction_pure demoHeap 0 none (some [(0, 0)]) (by decide)

/-- C9: an ROI whose extent runs past the image bounds is silently
truncated: the row projection has length `min nc (width - c)`, the column
projection `min nr (height - r)` (truncated subtraction), and each
projection entry is the sum over the in-bounds intersection of the
bad-pixel-zeroed image. -/
theorem C9_roi_truncation (im : Arr2 ℚ) (r c nr nc : ℕ)
    (bps : Option (List (ℕ × ℕ)))
    (hex : im.rows < r + nr ∨ im.cols < c + nc) :
    ((image_reduction im (some (r, c, nr, nc)) bps).1).length = min nc (im.cols - c) ∧
    ((image_reduction im (some (r, c, nr, nc)) bps).2).length = min nr (im.rows - r) ∧
    (∀ j < min nc (im.cols - c),
      ((image_reduction im (some (r, c, nr, nc)) bps).1).getD j 0 =
        ∑ i ∈ Finset.range (min nr (im.rows - r)),
          (applyBadPixels im bps).entry (r + i) (c + j)) ∧
    (∀ i < min nr (im.rows - r),
      ((image_reduction im (some (r, c, nr, nc)) bps).2).getD i 0 =
        ∑ j ∈ Finset.range (min nc (im.cols - c)),
          (applyBadPixels im bps).entry (r + i) (c + j)) := by
  clear hex
  set b := applyBadPixels im bps with hb
  have hbr : b.rows = im.rows := applyBadPixels_rows im bps
  have hbc : b.cols = im.cols := applyBadPixels_cols im bps
  have hcols : min (c + nc) b.cols - min c b.cols = min nc (im.cols - c) := by
    rw [hbc]; omega
  have hrows : min (r + nr) b.rows - min r b.rows = min nr (im.rows - r) := by
    rw [hbr]; omega
  have hred : image_reduction im (some (r, c, nr, nc)) bps =
      (sumAxis0 (sliceArr b r c nr nc), sumAxis1 (sliceArr b r c nr nc)) := rfl
  refine ⟨?_, ?_, ?_, ?_⟩
  · rw [hred]; simp [sumAxis0, sliceArr, hcols]
  · rw [hred]; simp [sumAxis1, sliceArr, hrows]
  · intro j hj
    rw [hred]
    have hstart_c : min c b.cols = c := by rw [hbc]; omega
    have hlen : j < ((List.range (min (c + nc) b.cols - min c b.cols)).map
        (fun j => ((List.range (min (r + nr) b.rows - min r b.rows)).map
          fun i => b.entry (min r b.rows + i) (min c b.cols + j)).sum)).length := by
      simpa [hcols] using hj
    show (sumAxis0 (sliceArr b r c nr nc)).getD j 0 = _
    unfold sumAxis0 sliceArr
    rw [List.getD_eq_getElem _ _ hlen, List.getElem_map, List.getElem_range,
      sum_map_range, hrows]
    refine Finset.sum_congr rfl fun i hi => ?_
    have hstart_r : min r b.rows = r := by
      have : 0 < min nr (im.rows - r) := lt_of_le_of_lt (Nat.zero_le i) (Finset.mem_range.mp hi)
      rw [hbr]; omega
    rw [hstart_r, hstart_c]
  · intro i hi
    rw [hred]
    have hstart_r : min r b.rows = r := by rw [hbr]; omega
    have hlen : i < ((List.range (min (r + nr) b.rows - min r b.rows)).map
        (fun i => ((List.range (min (c + nc) b.cols - min c b.cols)).map
          fun j => b.entry (min r b.rows + i) (min c b.cols + j)).sum)).length := by
      simpa [hrows] using hi
    show (sumAxis1 (sliceArr b r c nr nc)).getD i 0 = _
    unfold sumAxis1 sliceArr
    rw [List.getD_eq_getElem _ _ hlen, List.getElem_map, List.getElem_range,
      sum_map_range, hcols]
    refine Finset.sum_congr rfl fun j hj => ?_
    have hstart_c : min c b.cols = c := by
      have : 0 < min nc (im.cols - c) := lt_of_le_of_lt (Nat.zero_le j) (Finset.mem_range.mp hj)
      rw [hbc]; omega
    rw [hstart_r, hstart_c]

/-- C2 counterexample: at even length `4` the code's support vector uses
floor-divided endpoints `-2 .. 1`, not the spec's half-integers
`-3/2 .. 3/2`, so the two vectors differ. -/
theorem C2_beta_counterexample : betaVec 4 ≠ betaSpec 4 := by
  intro h
  have hl1 : betaVec 4 = [(-2 : ℚ), -1, 0, 1].map (fun (q : ℚ) => Complex.I * (q : ℂ)) := by
    unfold betaVec
    have h1 : Int.fdiv (-(((4 : ℕ) : ℤ) - 1)) 2 = -2 := by decide
    have h2 : Int.fdiv (((4 : ℕ) : ℤ) - 1) 2 = 1 := by decide
    rw [h1, h2]
    refine congrArg (List.map _) ?_
    unfold linspaceQ
    simp [List.range_succ]
    norm_num
  have hl2 : betaSpec 4 =
      [(-3/2 : ℚ), -1/2, 1/2, 3/2].map (fun (q : ℚ) => Complex.I * (q : ℂ)) := by
    unfold betaSpec
    refine congrArg (List.map _) ?_
    unfold linspaceQ
    simp [List.range_succ]
    norm_num
  rw [hl1, hl2] at h
  simp only [List.map, List.cons.injEq] at h
  have hhead := mul_left_cancel₀ Complex.I_ne_zero h.1
  have : (-2 : ℚ) = -3/2 := Rat.cast_injective hhead
  norm_num at this

/-- C2 amended: for every positive length the support vector is
`i * linspace(lo, hi, length)` with the floor-divided endpoints
`lo = -(length/2)` and `hi = (length-1)/2`; for odd lengths this agrees
with the spec's real-division form. -/
theorem C2_beta_floor (L : ℕ) (hL : 0 < L) :
    betaVec L = betaAmended L ∧ (Odd L → betaVec L = betaSpec L) := by
  constructor
  · unfold betaVec betaAmended
    have h1 : ((Int.fdiv (-((L : ℤ) - 1)) 2 : ℤ) : ℚ) = -((L / 2 : ℕ) : ℚ) := by
      rw [Int.fdiv_eq_ediv _ (by norm_num)]
      have he : (-((L : ℤ) - 1)) / 2 = -((L / 2 : ℕ) : ℤ) := by omega
      rw [he, Int.cast_neg, Int.cast_natCast]
    have h2 : ((Int.fdiv ((L : ℤ) - 1) 2 : ℤ) : ℚ) = (((L - 1) / 2 : ℕ) : ℚ) := by
      rw [Int.fdiv_eq_ediv _ (by norm_num)]
      have he : ((L : ℤ) - 1) / 2 = (((L - 1) / 2 : ℕ) : ℤ) := by omega
      rw [he, Int.cast_natCast]
    rw [h1, h2]
  · intro hodd
    have hmod : L % 2 = 1 := Nat.odd_iff.mp hodd
    unfold betaVec betaSpec
    have hk : 2 * (((L : ℤ) - 1) / 2) = (L : ℤ) - 1 := by omega
    have h1 : ((Int.fdiv (-((L : ℤ) - 1)) 2 : ℤ) : ℚ) = -((L : ℚ) - 1) / 2 := by
      rw [Int.fdiv_eq_ediv _ (by norm_num)]
      have he : (-((L : ℤ) - 1)) / 2 = -(((L : ℤ) - 1) / 2) := by omega
      rw [he]
      have hq : ((((L : ℤ) - 1) / 2 : ℤ) : ℚ) * 2 = (L : ℚ) - 1 := by
        have := congrArg (fun z : ℤ => (z : ℚ)) hk
        push_cast at this ⊢
        linarith
      push_cast
      linarith
    have h2 : ((Int.fdiv ((L : ℤ) - 1) 2 : ℤ) : ℚ) = ((L : ℚ) - 1) / 2 := by
      rw [Int.fdiv_eq_ediv _ (by norm_num)]
      have hq : ((((L : ℤ) - 1) / 2 : ℤ) : ℚ) * 2 = (L : ℚ) - 1 := by
        have := congrArg (fun z : ℤ => (z : ℚ)) hk
        push_cast at this ⊢
        linarith
      linarith
    rw [h1, h2]

/-- C2 witness: the amended theorem applied at the odd length `5`. -/
theorem C2_beta_floor_witness :
    betaVec 5 = betaAmended 5 ∧ (Odd 5 → betaVec 5 = betaSpec 5) :=
  C2_beta_floor 5 (by decide)

/-- Sum of the mapped elementwise difference `a2 - g a1 beta` as an
indexed sum, for equal-length vectors. -/
theorem sum_zip_model (g : ℂ → ℂ → ℂ) (f : ℂ → ℝ) :
    ∀ (a2 a1 beta : List ℂ), a1.length = a2.length → beta.length = a2.length →
    ((List.zipWith (fun x y => x - y) a2 (List.zipWith g a1 beta)).map f).sum =
      ∑ k ∈ Finset.range a2.length, f (a2.getD k 0 - g (a1.getD k 0) (beta.getD k 0)) := by
  intro a2
  induction a2 with
  | nil => intro a1 beta _ _; simp
  | cons x t ih =>
    intro a1 beta h1 hb
    match a1, beta with
    | [], _ => simp at h1
    | _ :: _, [] => simp at hb
    | y :: t1, z :: t2 =>
      simp only [List.zipWith_cons_cons, List.map_cons, List.sum_cons, List.length_cons]
      rw [Finset.sum_range_succ']
      simp only [List.getD_cons_succ, List.getD_cons_zero]
      rw [ih t1 t2 (by simpa using h1) (by simpa using hb)]
      ring

/-- C4: the residual evaluator returns the sum over all indices of the
squared magnitude of `target - reference * amplitude * exp(phaseGradient *
support)`, a real and non-negative scalar. -/
theorem C4_residual (L : ℕ) (v : ℝ × ℝ) (a1 a2 : List ℂ)
    (h1 : a1.length = L) (h2 : a2.length = L) :
    rssFactory L v a1 a2 =
      (∑ k ∈ Finset.range L, Complex.abs (a2.getD k 0 - a1.getD k 0 * (v.1 : ℂ) *
        Complex.exp ((v.2 : ℂ) * (betaVec L).getD k 0)) ^ 2) ∧
    0 ≤ rssFactory L v a1 a2 := by
  have hblen : (betaVec L).length = L := by
    unfold betaVec linspaceQ
    rw [List.length_map, List.length_map, List.length_range]
  have habs : ∀ z : ℂ, (z * (starRingEnd ℂ) z).re = Complex.abs z ^ 2 := by
    intro z
    rw [Complex.mul_conj, Complex.sq_abs]
    simp
  have hmain : rssFactory L v a1 a2 =
      ∑ k ∈ Finset.range L, Complex.abs (a2.getD k 0 - a1.getD k 0 * (v.1 : ℂ) *
        Complex.exp ((v.2 : ℂ) * (betaVec L).getD k 0)) ^ 2 := by
    unfold rssFactory rssOf
    rw [sum_zip_model _ _ a2 a1 (betaVec L) (by omega) (by omega), h2]
    exact Finset.sum_congr rfl fun k _ => habs _
  refine ⟨hmain, ?_⟩
  rw [hmain]
  exact Finset.sum_nonneg fun k _ => pow_two_nonneg _

/-- C4 witness: the theorem applied to concrete one-element spectra. -/
theorem C4_residual_witness :
    rssFactory 1 (1, 0) [(1 : ℂ)] [(0 : ℂ)] =
      (∑ k ∈ Finset.range 1, Complex.abs ([(0 : ℂ)].getD k 0 -
        [(1 : ℂ)].getD k 0 * ((1 : ℝ) : ℂ) *
        Complex.exp (((0 : ℝ) : ℂ) * (betaVec 1).getD k 0)) ^ 2) ∧
    0 ≤ rssFactory 1 (1, 0) [(1 : ℂ)] [(0 : ℂ)] :=
  C4_residual 1 (1, 0) [(1 : ℂ)] [(0 : ℂ)] rfl rfl

/-- C9 witness: a `2 × 2` image with an ROI asking for `3` columns from
origin `(0, 1)`, which overruns the right edge and is truncated. -/
theorem C9_roi_truncation_witness :
    ((constArr 2 2 (1 : ℚ)).rows < 0 + 2 ∨ (constArr 2 2 (1 : ℚ)).cols < 1 + 3) ∧
    ((image_reduction (constArr 2 2 (1 : ℚ)) (some (0, 1, 2, 3)) none).1).length =
      min 3 ((constArr 2 2 (1 : ℚ)).cols - 1) :=
  ⟨Or.inr (by decide),
   (C9_roi_truncation (constArr 2 2 (1 : ℚ)) 0 1 2 3 none (Or.inr (by decide))).1⟩

/-- C3: at every frequency cell with vanishing divisor the combined
spectrum is masked to zero; at every other cell it equals
`-i (κx Tx (1-w) + κy Ty w) / divisor`; and a valid `w` never makes
`recon` raise. -/
theorem C3_dc_mask (padRow padCol : ℕ) (dx dy : ℝ) (w : ℚ) (tx ty : Arr2 ℂ) (i j : ℕ) :
    ((divV padRow padCol dx dy w i j = 0 →
      (cGrid padRow padCol dx dy w tx ty).entry i j = 0) ∧
     (divV padRow padCol dx dy w i j ≠ 0 →
      (cGrid padRow padCol dx dy w tx ty).entry i j =
        -Complex.I * ((freqCoord padCol dx j : ℝ) * tx.entry i j * ((1 : ℝ) - (w : ℝ)) +
          (freqCoord padRow dy i : ℝ) * ty.entry i j * ((w : ℝ) : ℂ)) /
          ((divV padRow padCol dx dy w i j : ℝ) : ℂ))) ∧
    (∀ (fft2 ifft2 : Arr2 ℂ → Arr2 ℂ) (gx gy : Arr2 ℝ) (padding : ℕ),
      ¬(w < 0 ∨ w > 1) →
      reconE fft2 ifft2 gx gy dx dy padding w =
        Except.ok (reconCore fft2 ifft2 gx gy dx dy padding w)) := by
  refine ⟨⟨fun h0 => ?_, fun hne => ?_⟩, fun fft2 ifft2 gx gy padding hw => ?_⟩
  · simp [cGrid, h0]
  · simp [cGrid, hne]
  · unfold reconE
    rw [if_neg hw]

/-- C3 witness: on `1 × 1` grids with unit steps the single cell is the
DC cell — its divisor is zero and the masked value is zero — and
`recon` with `w = 0` returns normally. -/
theorem C3_dc_mask_witness :
    divV 1 1 1 1 0 0 0 = 0 ∧
    (cGrid 1 1 1 1 0 (constArr 1 1 0) (constArr 1 1 0)).entry 0 0 = 0 ∧
    ¬((0 : ℚ) < 0 ∨ (0 : ℚ) > 1) ∧
    reconE id id (constArr 1 1 0) (constArr 1 1 0) 1 1 0 0 =
      Except.ok (reconCore id id (constArr 1 1 0) (constArr 1 1 0) 1 1 0 0) := by
  have hdiv : divV 1 1 1 1 0 0 0 = 0 := by
    simp [divV, freqCoord]
  have hw : ¬((0 : ℚ) < 0 ∨ (0 : ℚ) > 1) := by simp
  exact ⟨hdiv, ((C3_dc_mask 1 1 1 1 0 (constArr 1 1 0) (constArr 1 1 0) 0 0).1).1 hdiv,
    hw, (C3_dc_mask 1 1 1 1 0 (constArr 1 1 0) (constArr 1 1 0) 0 0).2
      id id (constArr 1 1 0) (constArr 1 1 0) 0 hw⟩

/-- C8: the padded grids have shape `(rows*(2p+1), cols*(2p+1))` with the
gradient placed at offset `(p*rows, p*cols)` and zeros elsewhere, and the
reconstruction output is the real part of the inverse transform cropped
at that same offset, with exactly the shape of `gx`. -/
theorem C8_recon_geometry (fft2 ifft2 : Arr2 ℂ → Arr2 ℂ)
    (hifft : ∀ a : Arr2 ℂ, (ifft2 a).rows = a.rows ∧ (ifft2 a).cols = a.cols)
    (gx gy : Arr2 ℝ) (dx dy : ℝ) (p : ℕ) (w : ℚ) :
    (placePad gx.rows gx.cols gx p).rows = gx.rows * (2 * p + 1) ∧
    (placePad gx.rows gx.cols gx p).cols = gx.cols * (2 * p + 1) ∧
    (∀ i < gx.rows, ∀ j < gx.cols,
      (placePad gx.rows gx.cols gx p).entry (p * gx.rows + i) (p * gx.cols + j) =
        gx.entry i j) ∧
    (∀ i j, ¬(p * gx.rows ≤ i ∧ i < (p + 1) * gx.rows ∧
              p * gx.cols ≤ j ∧ j < (p + 1) * gx.cols) →
      (placePad gx.rows gx.cols gx p).entry i j = 0) ∧
    (reconCore fft2 ifft2 gx gy dx dy p w).rows = gx.rows ∧
    (reconCore fft2 ifft2 gx gy dx dy p w).cols = gx.cols ∧
    (∀ i < gx.rows, ∀ j < gx.cols,
      (reconCore fft2 ifft2 gx gy dx dy p w).entry i j =
        ((ifft2 (ifftshift2 (cGrid (gx.rows * (2 * p + 1)) (gx.cols * (2 * p + 1)) dx dy w
          (fftshift2 (fft2 (toC (placePad gx.rows gx.cols gx p))))
          (fftshift2 (fft2 (toC (placePad gx.rows gx.cols gy p))))))).entry
            (p * gx.rows + i) (p * gx.cols + j)).re) := by
  have hmulr : (p + 1) * gx.rows = p * gx.rows + gx.rows := by ring
  have hmulc : (p + 1) * gx.cols = p * gx.cols + gx.cols := by ring
  have hpadr : gx.rows * (2 * p + 1) = p * gx.rows + gx.rows + p * gx.rows := by ring
  have hpadc : gx.cols * (2 * p + 1) = p * gx.cols + gx.cols + p * gx.cols := by ring
  set c2 := ifftshift2 (cGrid (gx.rows * (2 * p + 1)) (gx.cols * (2 * p + 1)) dx dy w
    (fftshift2 (fft2 (toC (placePad gx.rows gx.cols gx p))))
    (fftshift2 (fft2 (toC (placePad gx.rows gx.cols gy p))))) with hc2
  have hrows : (ifft2 c2).rows = gx.rows * (2 * p + 1) := (hifft c2).1
  have hcols : (ifft2 c2).cols = gx.cols * (2 * p + 1) := (hifft c2).2
  have hcore : reconCore fft2 ifft2 gx gy dx dy p w =
      reMap (sliceArr (ifft2 c2) (p * gx.rows) (p * gx.cols) gx.rows gx.cols) := rfl
  refine ⟨rfl, rfl, ?_, ?_, ?_, ?_, ?_⟩
  · intro i hi j hj
    have hcond : p * gx.rows ≤ p * gx.rows + i ∧ p * gx.rows + i < (p + 1) * gx.rows ∧
        p * gx.cols ≤ p * gx.cols + j ∧ p * gx.cols + j < (p + 1) * gx.cols :=
      ⟨by omega, by omega, by omega, by omega⟩
    simp only [placePad]
    rw [if_pos hcond]
    congr 1 <;> omega
  · intro i j hout
    simp only [placePad]
    rw [if_neg hout]
  · rw [hcore]
    show min (p * gx.rows + gx.rows) (ifft2 c2).rows - min (p * gx.rows) (ifft2 c2).rows =
      gx.rows
    rw [hrows]
    omega
  · rw [hcore]
    show min (p * gx.cols + gx.cols) (ifft2 c2).cols - min (p * gx.cols) (ifft2 c2).cols =
      gx.cols
    rw [hcols]
    omega
  · intro i hi j hj
    rw [hcore]
    show ((ifft2 c2).entry (min (p * gx.rows) (ifft2 c2).rows + i)
        (min (p * gx.cols) (ifft2 c2).cols + j)).re = _
    rw [hrows, hcols]
    congr 2 <;> omega

/-- C8 witness: the theorem applied to identity transforms (which are
shape-preserving) on a concrete `1 × 1` gradient pair with `padding = 1`. -/
theorem C8_recon_geometry_witness :
    (∀ a : Arr2 ℂ, (id a).rows = a.rows ∧ (id a).cols = a.cols) ∧
    ((placePad (constArr 1 1 (0 : ℝ)).rows (constArr 1 1 (0 : ℝ)).cols
        (constArr 1 1 (0 : ℝ)) 1).rows = (constArr 1 1 (0 : ℝ)).rows * (2 * 1 + 1) ∧
     (reconCore id id (constArr 1 1 (0 : ℝ)) (constArr 1 1 (0 : ℝ)) 1 1 1 0).rows =
        (constArr 1 1 (0 : ℝ)).rows) := by
  have hid : ∀ a : Arr2 ℂ, (id a).rows = a.rows ∧ (id a).cols = a.cols := fun a => ⟨rfl, rfl⟩
  have h := C8_recon_geometry id id hid (constArr 1 1 (0 : ℝ)) (constArr 1 1 (0 : ℝ)) 1 1 1 0
  exact ⟨hid, h.1, h.2.2.2.2.1⟩

section RunnerLemmas

variable (rows cols : ℕ) (step : Arr2 ℚ → ℕ → ℕ → DpcState → DpcState)

/-- When the sequence still holds more elements than the remaining scan
positions, the loop pulls elements up to and including the first
out-of-range index and then raises from `unravel_index`. -/
theorem scanLoop_overrun : ∀ (imgs : List (Arr2 ℚ)) (idx : ℕ) (s : DpcState),
    idx ≤ rows * cols → rows * cols < imgs.length + idx →
    scanLoop rows cols step imgs idx s =
      (Except.error unravelMsg, rows * cols + 1 - idx) := by
  intro imgs
  induction imgs with
  | nil => intro idx s hle hlt; simp at hlt; omega
  | cons im rest ih =>
    intro idx s hle hlt
    by_cases hidx : idx < rows * cols
    · have hrec := ih (idx + 1) (step im (idx / cols) (idx % cols) s)
        (by omega) (by simp at hlt ⊢; omega)
      simp only [scanLoop, if_pos hidx, hrec]
      refine Prod.ext rfl ?_
      show rows * cols + 1 - (idx + 1) + 1 = rows * cols + 1 - idx
      omega
    · have hidx' : idx = rows * cols := by omega
      simp only [scanLoop, if_neg hidx]
      refine Prod.ext rfl ?_
      show 1 = rows * cols + 1 - idx
      omega

/-- When the sequence fits inside the scan grid the loop completes,
having pulled exactly every element. -/
theorem scanLoop_complete : ∀ (imgs : List (Arr2 ℚ)) (idx : ℕ) (s : DpcState),
    imgs.length + idx ≤ rows * cols →
    ∃ s2, scanLoop rows cols step imgs idx s = (Except.ok s2, imgs.length) := by
  intro imgs
  induction imgs with
  | nil => intro idx s _; exact ⟨s, rfl⟩
  | cons im rest ih =>
    intro idx s hle
    have hidx : idx < rows * cols := by simp at hle; omega
    obtain ⟨s2, hs2⟩ := ih (idx + 1) (step im (idx / cols) (idx % cols) s)
      (by simp at hle ⊢; omega)
    refine ⟨s2, ?_⟩
    simp only [scanLoop, if_pos hidx, hs2, List.length_cons]

/-- The only error the scan loop itself produces is the
`unravel_index` one. -/
theorem scanLoop_error_msg : ∀ (imgs : List (Arr2 ℚ)) (idx : ℕ) (s : DpcState) (e : String),
    (scanLoop rows cols step imgs idx s).1 = Except.error e → e = unravelMsg := by
  intro imgs
  induction imgs with
  | nil => intro idx s e h; simp [scanLoop] at h
  | cons im rest ih =>
    intro idx s e h
    by_cases hidx : idx < rows * cols
    · simp only [scanLoop, if_pos hidx] at h
      exact ih (idx + 1) (step im (idx / cols) (idx % cols) s) e h
    · simp [scanLoop, hidx] at h
      exact h.symm

end RunnerLemmas

/-- With a valid `w`, `dpc_runner` is the tail applied to the loop result. -/
theorem dpc_runner_eq (fft2 ifft2 : Arr2 ℂ → Arr2 ℂ) (ifft1 : List ℚ → List ℂ)
    (fit : ((ℝ × ℝ) → List ℂ → List ℂ → ℝ) → (ℝ × ℝ) → List ℂ → List ℂ → String → ℝ × ℝ)
    (ref : Arr2 ℚ) (images : List (Arr2 ℚ)) (start : ℝ × ℝ) (px : ℚ × ℚ)
    (focusToDet : ℝ) (rows cols : ℕ) (dx dy : ℝ) (energy : ℝ) (padding : ℕ)
    (w : ℚ) (solver : String) (roi : Option (ℕ × ℕ × ℕ × ℕ))
    (bps : Option (List (ℕ × ℕ))) (invert scale : Bool)
    (hw : ¬(w < 0 ∨ w > 1)) :
    dpc_runner fft2 ifft2 ifft1 fit ref images start px focusToDet rows cols dx dy energy
        padding w solver roi bps invert scale =
      runnerTail fft2 ifft2 px focusToDet dx dy energy padding w invert scale
        (fftshift1 (ifft1 (image_reduction ref roi bps).1))
        (fftshift1 (ifft1 (image_reduction ref roi bps).2))
        (scanLoop rows cols
          (scanStep ifft1 fit solver start roi bps
            (rssFactory (fftshift1 (ifft1 (image_reduction ref roi bps).1)).length)
            (rssFactory (fftshift1 (ifft1 (image_reduction ref roi bps).2)).length)
            (fftshift1 (ifft1 (image_reduction ref roi bps).1))
            (fftshift1 (ifft1 (image_reduction ref roi bps).2)))
          images 0
          ⟨constArr rows cols 0, constArr rows cols 0, constArr rows cols 0,
           constArr rows cols 0⟩) := by
  unfold dpc_runner
  rw [if_neg hw]

/-- An errored loop result passes straight through the tail. -/
theorem runnerTail_error (fft2 ifft2 : Arr2 ℂ → Arr2 ℂ) (px : ℚ × ℚ)
    (focusToDet : ℝ) (dx dy : ℝ) (energy : ℝ) (padding : ℕ) (w : ℚ)
    (invert scale : Bool) (ref_fx ref_fy : List ℂ)
    (res : Except String DpcState × ℕ) (e : String) (h : res.1 = Except.error e) :
    runnerTail fft2 ifft2 px focusToDet dx dy energy padding w invert scale ref_fx ref_fy
      res = (Except.error e, res.2) := by
  unfold runnerTail
  rw [h]

/-- On an overrunning sequence the runner errors out of `unravel_index`
after pulling `rows*cols + 1` elements. -/
theorem dpc_runner_overrun (fft2 ifft2 : Arr2 ℂ → Arr2 ℂ) (ifft1 : List ℚ → List ℂ)
    (fit : ((ℝ × ℝ) → List ℂ → List ℂ → ℝ) → (ℝ × ℝ) → List ℂ → List ℂ → String → ℝ × ℝ)
    (ref : Arr2 ℚ) (images : List (Arr2 ℚ)) (start : ℝ × ℝ) (px : ℚ × ℚ)
    (focusToDet : ℝ) (rows cols : ℕ) (dx dy : ℝ) (energy : ℝ) (padding : ℕ)
    (w : ℚ) (solver : String) (roi : Option (ℕ × ℕ × ℕ × ℕ))
    (bps : Option (List (ℕ × ℕ))) (invert scale : Bool)
    (hw : ¬(w < 0 ∨ w > 1)) (hlen : rows * cols < images.length) :
    dpc_runner fft2 ifft2 ifft1 fit ref images start px focusToDet rows cols dx dy energy
        padding w solver roi bps invert scale =
      (Except.error unravelMsg, rows * cols + 1) := by
  rw [dpc_runner_eq fft2 ifft2 ifft1 fit ref images start px focusToDet rows cols dx dy
    energy padding w solver roi bps invert scale hw]
  rw [scanLoop_overrun rows cols _ images 0 _ (Nat.zero_le _) (by omega)]
  simp [runnerTail]

/-- With a valid `w`, the tail can only surface the unravel or pixel
error, never the weighting one. -/
theorem runnerTail_ne_wMsg (fft2 ifft2 : Arr2 ℂ → Arr2 ℂ) (px : ℚ × ℚ)
    (focusToDet : ℝ) (dx dy : ℝ) (energy : ℝ) (padding : ℕ) (w : ℚ)
    (invert scale : Bool) (ref_fx ref_fy : List ℂ)
    (res : Except String DpcState × ℕ)
    (hw : ¬(w < 0 ∨ w > 1)) (hres : ∀ e, res.1 = Except.error e → e = unravelMsg) :
    (runnerTail fft2 ifft2 px focusToDet dx dy energy padding w invert scale
      ref_fx ref_fy res).1 ≠ Except.error wMsg := by
  obtain ⟨res1, n⟩ := res
  cases res1 with
  | error e =>
    have he := hres e rfl
    subst he
    simp only [runnerTail]
    intro hcontra
    exact absurd (Except.error.inj hcontra) (by decide)
  | ok st =>
    simp only [runnerTail]
    by_cases hpx : scale = true ∧ px.1 ≠ px.2
    · rw [if_pos hpx]
      intro hcontra
      exact absurd (Except.error.inj hcontra) (by decide)
    · rw [if_neg hpx]
      simp only [reconE, if_neg hw]
      simp

/-- A concrete `1 × 1` image used by the runner claims. -/
def demoImg : Arr2 ℚ := constArr 1 1 0

/-- A concrete stand-in for the external optimizer: always returns the
origin. -/
noncomputable def demoFit : ((ℝ × ℝ) → List ℂ → List ℂ → ℝ) → (ℝ × ℝ) →
    List ℂ → List ℂ → String → ℝ × ℝ := fun _ _ _ _ _ => (0, 0)

/-- A concrete stand-in for the external 1-D inverse transform. -/
def demoIfft : List ℚ → List ℂ := fun _ => []

/-- C1 counterexample: with `rows = cols = 1` and a two-element
sequence, the runner pulls both elements (2, not `rows*cols = 1`) and
raises from `unravel_index` instead of completing normally. -/
theorem C1_counterexample :
    (dpc_runner id id demoIfft demoFit demoImg [demoImg, demoImg] (0, 0) (1, 1) 1 1 1 1 1 1
      0 0 "Nelder-Mead" none none true true).1 = Except.error unravelMsg ∧
    (dpc_runner id id demoIfft demoFit demoImg [demoImg, demoImg] (0, 0) (1, 1) 1 1 1 1 1 1
      0 0 "Nelder-Mead" none none true true).2 = 2 := by
  have h := dpc_runner_overrun id id demoIfft demoFit demoImg [demoImg, demoImg] (0, 0)
    (1, 1) 1 1 1 1 1 1 0 0 "Nelder-Mead" none none true true (by norm_num) (by norm_num)
  rw [h]
  exact ⟨rfl, rfl⟩

/-- C1 amended: the loop has no early stop — on any sequence longer
than `rows*cols` (and a valid `w`), the runner pulls exactly
`rows*cols + 1` elements and raises the unravel error instead of
completing normally. -/
theorem C1_runner_overconsumes (fft2 ifft2 : Arr2 ℂ → Arr2 ℂ) (ifft1 : List ℚ → List ℂ)
    (fit : ((ℝ × ℝ) → List ℂ → List ℂ → ℝ) → (ℝ × ℝ) → List ℂ → List ℂ → String → ℝ × ℝ)
    (ref : Arr2 ℚ) (images : List (Arr2 ℚ)) (start : ℝ × ℝ) (px : ℚ × ℚ)
    (focusToDet : ℝ) (rows cols : ℕ) (dx dy : ℝ) (energy : ℝ) (padding : ℕ)
    (w : ℚ) (solver : String) (roi : Option (ℕ × ℕ × ℕ × ℕ))
    (bps : Option (List (ℕ × ℕ))) (invert scale : Bool)
    (hw : ¬(w < 0 ∨ w > 1)) (hlen : rows * cols < images.length) :
    (dpc_runner fft2 ifft2 ifft1 fit ref images start px focusToDet rows cols dx dy energy
      padding w solver roi bps invert scale).1 = Except.error unravelMsg ∧
    (dpc_runner fft2 ifft2 ifft1 fit ref images start px focusToDet rows cols dx dy energy
      padding w solver roi bps invert scale).2 = rows * cols + 1 := by
  rw [dpc_runner_overrun fft2 ifft2 ifft1 fit ref images start px focusToDet rows cols dx dy
    energy padding w solver roi bps invert scale hw hlen]
  exact ⟨rfl, rfl⟩

/-- C1 witness: the amended theorem at the concrete overrunning input. -/
theorem C1_runner_overconsumes_witness :
    (dpc_runner id id demoIfft demoFit demoImg [demoImg, demoImg, demoImg] (0, 0) (1, 1)
      1 1 1 1 1 1 0 0 "Nelder-Mead" none none true true).1 = Except.error unravelMsg ∧
    (dpc_runner id id demoIfft demoFit demoImg [demoImg, demoImg, demoImg] (0, 0) (1, 1)
      1 1 1 1 1 1 0 0 "Nelder-Mead" none none true true).2 = 1 * 1 + 1 :=
  C1_runner_overconsumes id id demoIfft demoFit demoImg [demoImg, demoImg, demoImg] (0, 0)
    (1, 1) 1 1 1 1 1 1 0 0 "Nelder-Mead" none none true true (by decide) (by decide)

/-- C6: `recon` raises the weighting `ValueError` exactly when
`w < 0 ∨ w > 1`, and `dpc_runner` performs the same raise-iff check,
pulling zero elements from the sequence when it fires. -/
theorem C6_w_validation (fft2 ifft2 : Arr2 ℂ → Arr2 ℂ) (ifft1 : List ℚ → List ℂ)
    (fit : ((ℝ × ℝ) → List ℂ → List ℂ → ℝ) → (ℝ × ℝ) → List ℂ → List ℂ → String → ℝ × ℝ)
    (ref : Arr2 ℚ) (images : List (Arr2 ℚ)) (start : ℝ × ℝ) (px : ℚ × ℚ)
    (focusToDet : ℝ) (rows cols : ℕ) (dx dy : ℝ) (energy : ℝ) (padding : ℕ)
    (w : ℚ) (solver : String) (roi : Option (ℕ × ℕ × ℕ × ℕ))
    (bps : Option (List (ℕ × ℕ))) (invert scale : Bool) (gx gy : Arr2 ℝ) :
    (reconE fft2 ifft2 gx gy dx dy padding w = Except.error wMsg ↔ (w < 0 ∨ w > 1)) ∧
    ((dpc_runner fft2 ifft2 ifft1 fit ref images start px focusToDet rows cols dx dy energy
        padding w solver roi bps invert scale).1 = Except.error wMsg ↔ (w < 0 ∨ w > 1)) ∧
    ((w < 0 ∨ w > 1) →
      (dpc_runner fft2 ifft2 ifft1 fit ref images start px focusToDet rows cols dx dy energy
        padding w solver roi bps invert scale).2 = 0) := by
  by_cases hw : w < 0 ∨ w > 1
  · refine ⟨?_, ?_, fun _ => ?_⟩
    · unfold reconE; rw [if_pos hw]; exact iff_of_true rfl hw
    · unfold dpc_runner; rw [if_pos hw]; exact iff_of_true rfl hw
    · unfold dpc_runner; rw [if_pos hw]
  · refine ⟨?_, ?_, fun hcon => absurd hcon hw⟩
    · unfold reconE; rw [if_neg hw]
      exact iff_of_false (by simp) hw
    · rw [dpc_runner_eq fft2 ifft2 ifft1 fit ref images start px focusToDet rows cols dx dy
        energy padding w solver roi bps invert scale hw]
      exact iff_of_false
        (runnerTail_ne_wMsg _ _ _ _ _ _ _ _ _ _ _ _ _ _ hw
          (fun e h => scanLoop_error_msg rows cols _ images 0 _ e h)) hw

/-- C6 witness: at the invalid weight `w = 2` both raise-iff statements
hold, the invalidity itself is exhibited, and the runner pulls nothing. -/
theorem C6_w_validation_witness :
    ((2 : ℚ) < 0 ∨ (2 : ℚ) > 1) ∧
    ((reconE id id (constArr 1 1 0) (constArr 1 1 0) 1 1 0 2 = Except.error wMsg ↔
        ((2 : ℚ) < 0 ∨ (2 : ℚ) > 1)) ∧
     (dpc_runner id id demoIfft demoFit demoImg [demoImg] (0, 0) (1, 1) 1 1 1 1 1 1 0 2
        "Nelder-Mead" none none true true).2 = 0) := by
  have h := C6_w_validation id id demoIfft demoFit demoImg [demoImg] (0, 0) (1, 1) 1 1 1
    1 1 1 0 2 "Nelder-Mead" none none true true (constArr 1 1 0) (constArr 1 1 0)
  have hv : (2 : ℚ) < 0 ∨ (2 : ℚ) > 1 := by decide
  exact ⟨hv, h.1, h.2.2 hv⟩

/-- C10: with square-pixel violation under `scale`, the runner still
pulls the whole sequence and fits every position first; the pixel error
surfaces only after the loop has consumed everything. -/
theorem C10_pixel_check_after_loop (fft2 ifft2 : Arr2 ℂ → Arr2 ℂ) (ifft1 : List ℚ → List ℂ)
    (fit : ((ℝ × ℝ) → List ℂ → List ℂ → ℝ) → (ℝ × ℝ) → List ℂ → List ℂ → String → ℝ × ℝ)
    (ref : Arr2 ℚ) (images : List (Arr2 ℚ)) (start : ℝ × ℝ) (px : ℚ × ℚ)
    (focusToDet : ℝ) (rows cols : ℕ) (dx dy : ℝ) (energy : ℝ) (padding : ℕ)
    (w : ℚ) (solver : String) (roi : Option (ℕ × ℕ × ℕ × ℕ))
    (bps : Option (List (ℕ × ℕ))) (invert : Bool)
    (hw : ¬(w < 0 ∨ w > 1)) (hpx : px.1 ≠ px.2) (hlen : images.length = rows * cols) :
    (dpc_runner fft2 ifft2 ifft1 fit ref images start px focusToDet rows cols dx dy energy
      padding w solver roi bps invert true).1 = Except.error pxMsg ∧
    (dpc_runner fft2 ifft2 ifft1 fit ref images start px focusToDet rows cols dx dy energy
      padding w solver roi bps invert true).2 = images.length := by
  rw [dpc_runner_eq fft2 ifft2 ifft1 fit ref images start px focusToDet rows cols dx dy
    energy padding w solver roi bps invert true hw]
  obtain ⟨s2, hs⟩ := scanLoop_complete rows cols
    (scanStep ifft1 fit solver start roi bps
      (rssFactory (fftshift1 (ifft1 (image_reduction ref roi bps).1)).length)
      (rssFactory (fftshift1 (ifft1 (image_reduction ref roi bps).2)).length)
      (fftshift1 (ifft1 (image_reduction ref roi bps).1))
      (fftshift1 (ifft1 (image_reduction ref roi bps).2)))
    images 0
    ⟨constArr rows cols 0, constArr rows cols 0, constArr rows cols 0, constArr rows cols 0⟩
    (by omega)
  rw [hs]
  simp [runnerTail, hpx]

/-- C10 witness: the theorem at a concrete one-image scan with
rectangular pixels. -/
theorem C10_pixel_check_after_loop_witness :
    (dpc_runner id id demoIfft demoFit demoImg [demoImg] (0, 0) (1, 2) 1 1 1 1 1 1 0 0
      "Nelder-Mead" none none true true).1 = Except.error pxMsg ∧
    (dpc_runner id id demoIfft demoFit demoImg [demoImg] (0, 0) (1, 2) 1 1 1 1 1 1 0 0
      "Nelder-Mead" none none true true).2 = [demoImg].length :=
  C10_pixel_check_after_loop id id demoIfft demoFit demoImg [demoImg] (0, 0) (1, 2) 1 1 1
    1 1 1 0 0 "Nelder-Mead" none none true (by decide) (by decide) rfl

end Dpc
